import Mathlib

/-!
Verification of the Nexus Docker search tool.

The repository contains two implementation variants of the same
command-line client:

* variant A: `src/go/nexus/main.go`
* variant B: `src/unnamed/part_000`

Both variants query a Nexus search endpoint, aggregate and deduplicate
(name, version, sha256) records, group them by image name, and derive a
filtered tag list per image.  This file gives a shallow embedding of the
core logic of both variants (the tag filter, the digest computation, the
grouping, and the page/pattern aggregation loop) and proves the frozen
claims about them.

Conventions of the embedding:

* Go strings are Lean `String`s.  Go's byte-wise string comparison
  coincides with Lean's code-point lexicographic order because UTF-8 is
  order preserving.
* `strconv.Atoi` is modelled by `atoi` below, including the sign handling
  and the 64-bit range check (`Atoi` fails with `ErrRange` outside
  int64).
* `sort.Slice` in Go uses plain insertion sort for slices of at most 12
  elements (`pdqsort` dispatches to `insertionSort` at that size); the
  embedding `goSort` is exactly that insertion sort (each element moves
  left past its neighbour `y` while `less x y`), which is what the tool
  executes on the short tag lists the claims exercise.
* Go maps keyed by strings are modelled as association lists in first
  occurrence order (`map` iteration order is unspecified in Go; the
  derived mapping name to tag list is order independent).
* The HTTP layer is abstracted: a remote interaction for one pattern is
  the list of responses the server returns for the successive page
  requests, each either `Except.error` (transport failure, non-2xx
  status, or undecodable body) or `Except.ok` a decoded page.
-/

/-- Checksum of a Nexus asset (`Checksum` struct in part_000). -/
structure Checksum where
  sha256 : String
deriving DecidableEq, Repr

/-- A Nexus asset (`Asset` struct in part_000). -/
structure Asset where
  checksum : Checksum
deriving DecidableEq, Repr

/-- A Nexus component entry of a search page (`Component` in part_000,
the decoded `items` entries in main.go). -/
structure Component where
  name : String
  version : String
  assets : List Asset
deriving DecidableEq, Repr

/-- One decoded search page (`NexusResponse` in part_000): the component
items plus the continuation token (empty string means last page). -/
structure Page where
  items : List Component
  continuationToken : String
deriving DecidableEq, Repr

/-- Failure of a page request: transport/HTTP/decoding failure as
reported by `makeRequest`, or a request for which the scripted remote
has no response at all (an artefact of the embedding; well-formed remote
scripts never reach it). -/
inductive Err where
  | http (message : String)
  | noResponse
deriving DecidableEq, Repr

/-- An aggregated search record (`SearchResult` in part_000, the
`map[string]string` triple in main.go). -/
structure SearchResult where
  name : String
  version : String
  sha256 : String
deriving DecidableEq, Repr

/-- Numeric value of a nonempty all-digit character list, `none`
otherwise.  Digits are ASCII only, as in Go's `strconv`. -/
def digitsVal : List Char → Option Nat
  | [] => none
  | cs =>
    if cs.all Char.isDigit then
      some (cs.foldl (fun n c => n * 10 + (c.toNat - 48)) 0)
    else none

/-- Largest value of a Go `int` (64-bit build), `2^63 - 1`. -/
def goMaxInt : Int := 2 ^ 63 - 1

/-- Smallest value of a Go `int` (64-bit build), `-2^63`. -/
def goMinInt : Int := -(2 ^ 63)

/-- Model of Go's `strconv.Atoi`: an optional single leading sign
followed by at least one ASCII digit, with the value required to fit in
a 64-bit `int` (out-of-range input fails with `ErrRange`). -/
def atoi (s : String) : Option Int :=
  match s.data with
  | '+' :: rest =>
    (digitsVal rest).bind fun n =>
      if (n : Int) ≤ goMaxInt then some (n : Int) else none
  | '-' :: rest =>
    (digitsVal rest).bind fun n =>
      if goMinInt ≤ -(n : Int) then some (-(n : Int)) else none
  | cs =>
    (digitsVal cs).bind fun n =>
      if (n : Int) ≤ goMaxInt then some (n : Int) else none

/-- Comparator passed to `sort.Slice` in main.go (lines 234-241): if
either tag fails `Atoi`, report not-less; otherwise numeric descending. -/
def lessA (s t : String) : Bool :=
  match atoi s, atoi t with
  | some a, some b => decide (b < a)
  | _, _ => false

/-- Lexicographic strict comparison of character lists.  For valid
UTF-8, byte-wise comparison of the encodings (what Go's `<` on strings
does) coincides with this code-point lexicographic order, because UTF-8
is order preserving. -/
def charListLt : List Char → List Char → Bool
  | [], [] => false
  | [], _ :: _ => true
  | _ :: _, [] => false
  | a :: as, b :: bs =>
    if a < b then true else if b < a then false else charListLt as bs

/-- Go's `s < t` on strings (byte-wise lexicographic). -/
def goStringLt (s t : String) : Bool := charListLt s.data t.data

/-- Comparator passed to `sort.Slice` in part_000 (lines 164-175): if
both tags parse, numeric descending; otherwise byte-wise descending
string comparison (`versionTags[i] > versionTags[j]`). -/
def lessB (s t : String) : Bool :=
  match atoi s, atoi t with
  | some a, some b => decide (b < a)
  | _, _ => goStringLt t s

/-- One step of Go's insertion sort: `x` moves left past each neighbour
`y` while `less x y`.  The accumulator list is kept reversed (head is
the rightmost element of the sorted prefix). -/
def insertRevAux (less : String → String → Bool) (x : String) :
    List String → List String
  | [] => [x]
  | y :: ys => if less x y then y :: insertRevAux less x ys else x :: y :: ys

/-- Model of `sort.Slice` with comparator `less`: Go's insertion sort,
which processes elements left to right and moves each left past
neighbours it is `less` than.  (Go's `sort.Slice` runs exactly this
algorithm on slices of at most 12 elements.) -/
def goSort (less : String → String → Bool) (l : List String) : List String :=
  (l.foldl (fun acc x => insertRevAux less x acc) []).reverse

/-- The version-tag list a filter variant derives before the "latest"
decision: non-"latest" tags, sorted with the variant's comparator,
truncated to at most 2 entries (main.go lines 226-246, part_000 lines
152-180). -/
def truncatedVersionTags (less : String → String → Bool)
    (tags : List String) : List String :=
  (goSort less (tags.filter fun t => decide (t ≠ "latest"))).take 2

/-- The final loop of main.go's `filterTags` (lines 249-255): scan the
original tags; on the first "latest" tag with both digests nonempty and
equal, return "latest" prepended to the truncated version tags;
otherwise fall through to the version tags. -/
def latestLoopA (ld vd : String) (vt : List String) :
    List String → List String
  | [] => vt
  | t :: rest =>
    if t = "latest" ∧ ld ≠ "" ∧ vd ≠ "" then
      if ld = vd then "latest" :: vt else latestLoopA ld vd vt rest
    else latestLoopA ld vd vt rest

/-- `filterTags` of main.go (lines 220-258). -/
def filterTagsA (tags : List String) (latestDigest versionDigest : String) :
    List String :=
  if tags = [] then []
  else latestLoopA latestDigest versionDigest
    (truncatedVersionTags lessA tags) tags

/-- `filterTags` of part_000 (lines 147-188): `hasLatest` is whether a
"latest" tag occurs; the guard is the conjunction of part_000 line 183. -/
def filterTagsB (tags : List String) (latestDigest versionDigest : String) :
    List String :=
  if tags = [] then []
  else
    let vt := truncatedVersionTags lessB tags
    if "latest" ∈ tags ∧ latestDigest ≠ "" ∧ versionDigest ≠ "" ∧
        latestDigest = versionDigest then
      "latest" :: vt
    else vt

/-- The digest-collection loop of `processImages` (main.go lines
285-300, part_000 lines 214-225): walk the group, remembering the
digest of the (last) "latest" record and the digest of the record whose
version parses strictly above the running highest version.  `hi` is the
running `highestVersion`; main.go initialises it to 0, part_000 to -1. -/
def digestLoop : List SearchResult → String → String → Int → String × String
  | [], ld, vd, _ => (ld, vd)
  | r :: rest, ld, vd, hi =>
    if r.version = "latest" then digestLoop rest r.sha256 vd hi
    else
      match atoi r.version with
      | some n => if hi < n then digestLoop rest ld r.sha256 n
                  else digestLoop rest ld vd hi
      | none => digestLoop rest ld vd hi

/-- Image names in first-occurrence order, skipping names already seen. -/
def firstKeys (seen : List String) : List String → List String
  | [] => []
  | n :: rest =>
    if n ∈ seen then firstKeys seen rest
    else n :: firstKeys (n :: seen) rest

/-- Grouping of records by name (main.go lines 267-271, part_000 lines
197-200): Go appends each record to the map entry of its name, so the
group of a name is exactly the records with that name in input order.
The unspecified Go map iteration order is canonicalised to
first-occurrence order of the names. -/
def groupByName (records : List SearchResult) :
    List (String × List SearchResult) :=
  (firstKeys [] (records.map fun r => r.name)).map
    fun n => (n, records.filter fun r => decide (r.name = n))

/-- `processImages` of main.go (lines 261-310): per group compute the
digests (highest-version tracker starts at 0), filter the tags, and
keep the entry only when the filtered list is nonempty (line 304). -/
def processImagesA (records : List SearchResult) :
    List (String × List String) :=
  (groupByName records).filterMap fun p =>
    let d := digestLoop p.2 "" "" 0
    let ft := filterTagsA (p.2.map fun r => r.version) d.1 d.2
    if ft = [] then none else some (p.1, ft)

/-- `processImages` of part_000 (lines 191-238): per group compute the
digests (highest-version tracker starts at -1), filter the tags, and
always store the entry (line 234). -/
def processImagesB (records : List SearchResult) :
    List (String × List String) :=
  (groupByName records).map fun p =>
    let d := digestLoop p.2 "" "" (-1)
    (p.1, filterTagsB (p.2.map fun r => r.version) d.1 d.2)

/-- Deduplication key of a component: `name + ":" + version` (main.go
line 168, part_000 line 282). -/
def imageKey (c : Component) : String := c.name ++ ":" ++ c.version

/-- Record built from a component (main.go lines 183-196, part_000
lines 296-305): digest is the sha256 of the first asset, empty string
when the component has no assets. -/
def toRecord (c : Component) : SearchResult :=
  { name := c.name
    version := c.version
    sha256 := match c.assets with
              | [] => ""
              | a :: _ => a.checksum.sha256 }

/-- The per-page item loop of `SearchImages` (main.go lines 160-197,
part_000 lines 281-306): skip components whose key was already seen,
otherwise record the key and append the record. -/
def processItems : List Component → List String → List SearchResult →
    List String × List SearchResult
  | [], seen, acc => (seen, acc)
  | c :: rest, seen, acc =>
    if imageKey c ∈ seen then processItems rest seen acc
    else processItems rest (imageKey c :: seen) (acc ++ [toRecord c])

/-- The pagination loop for one pattern (main.go lines 137-208, part_000
lines 261-315): consume scripted responses in order; a failed request
aborts with its error; an ok page contributes its items and the loop
stops when the page carries no continuation token. -/
def runPattern : List (Except Err Page) → List String → List SearchResult →
    Except Err (List String × List SearchResult)
  | [], _, _ => Except.error Err.noResponse
  | Except.error e :: _, _, _ => Except.error e
  | Except.ok pg :: rest, seen, acc =>
    let sa := processItems pg.items seen acc
    if pg.continuationToken = "" then Except.ok sa
    else runPattern rest sa.1 sa.2

/-- The pattern loop of `SearchImages`: patterns are processed in order,
threading the seen-key set and the record accumulator across patterns;
the first failing pattern aborts the whole aggregation. -/
def searchLoop : List (List (Except Err Page)) → List String →
    List SearchResult → Except Err (List SearchResult)
  | [], _, acc => Except.ok acc
  | ps :: rest, seen, acc =>
    match runPattern ps seen acc with
    | Except.error e => Except.error e
    | Except.ok sa => searchLoop rest sa.1 sa.2

/-- `SearchImages` (aggregation part): one scripted response list per
pattern, producing the flat deduplicated record list (part_000 lines
241-323; main.go lines 109-217 additionally pipes the result through
`processImages`). -/
def SearchImages (patterns : List (List (Except Err Page))) :
    Except Err (List SearchResult) :=
  searchLoop patterns [] []

/-- Aggregation of a flat component stream starting from empty state:
what `SearchImages` computes once pages and patterns are flattened. -/
def aggregate (comps : List Component) : List SearchResult :=
  (processItems comps [] []).2

/-- The components actually consumed from one pattern's scripted
responses: items of the ok pages up to and including the first page
with an empty continuation token (nothing once an error is hit). -/
def consumedItems : List (Except Err Page) → List Component
  | [] => []
  | Except.error _ :: _ => []
  | Except.ok pg :: rest =>
    if pg.continuationToken = "" then pg.items
    else pg.items ++ consumedItems rest

/-- A scripted response list on which the pagination loop of one pattern
succeeds: ok pages, and a page with empty continuation token is reached. -/
def patternRunOk : List (Except Err Page) → Bool
  | [] => false
  | Except.error _ :: _ => false
  | Except.ok pg :: rest =>
    if pg.continuationToken = "" then true else patternRunOk rest

/-- A response that is an ok page carrying a nonempty continuation token
(the pagination loop consumes it and continues). -/
def okWithToken : Except Err Page → Bool
  | Except.ok pg => decide (pg.continuationToken ≠ "")
  | Except.error _ => false

/-- Specification-side deduplication by the (name, version) pair itself
(not by the joined key string): keep the first occurrence of each pair. -/
def pairDedup : List Component → List (String × String) → List SearchResult
  | [], _ => []
  | c :: rest, seen =>
    if (c.name, c.version) ∈ seen then pairDedup rest seen
    else toRecord c :: pairDedup rest ((c.name, c.version) :: seen)

/-- Specification-side "winning record" of a group: among records whose
version parses, the value and digest of the first record attaining the
numerically largest value (a left tie wins via the `w ≤ v` test);
`none` when no version parses. -/
def bestFrom : List SearchResult → Option (Int × String)
  | [] => none
  | r :: rest =>
    match atoi r.version, bestFrom rest with
    | some v, some (w, s) =>
      if w ≤ v then some (v, r.sha256) else some (w, s)
    | some v, none => some (v, r.sha256)
    | none, t => t

/-- Joined deduplication key of a (name, version) pair. -/
def joinKey (p : String × String) : String := p.1 ++ ":" ++ p.2

/-- Whether a string parses (via `Atoi`) to a strictly positive integer. -/
def posParse (s : String) : Bool :=
  match atoi s with
  | some v => decide (0 < v)
  | none => false

/-! ### Permutation and membership facts about the sort -/

/-- Inserting with `insertRevAux` permutes: the result holds exactly the
inserted element and the old elements. -/
theorem insertRevAux_perm (less : String → String → Bool) (x : String)
    (l : List String) : List.Perm (insertRevAux less x l) (x :: l) := by
  induction l with
  | nil => exact List.Perm.refl _
  | cons y ys ih =>
    simp only [insertRevAux]
    split
    · exact (ih.cons y).trans (List.Perm.swap x y ys)
    · exact List.Perm.refl _

/-- The insertion fold permutes the input in front of the accumulator. -/
theorem goSortAux_perm (less : String → String → Bool) :
    ∀ (l acc : List String),
      List.Perm (l.foldl (fun a x => insertRevAux less x a) acc) (l ++ acc) := by
  intro l
  induction l with
  | nil => intro acc; simp
  | cons x xs ih =>
    intro acc
    simp only [List.foldl_cons]
    exact ((ih _).trans
      ((List.Perm.append_left xs (insertRevAux_perm less x acc)).trans
        List.perm_middle))

/-- `goSort` is a permutation of its input. -/
theorem goSort_perm (less : String → String → Bool) (l : List String) :
    List.Perm (goSort less l) l := by
  unfold goSort
  exact (List.reverse_perm _).trans ((goSortAux_perm less l []).trans (by simp))

/-- Membership is preserved by `goSort`. -/
theorem mem_goSort (less : String → String → Bool) (x : String)
    (l : List String) : x ∈ goSort less l ↔ x ∈ l :=
  (goSort_perm less l).mem_iff

/-- The truncated version-tag list never contains "latest". -/
theorem latest_not_mem_truncated (less : String → String → Bool)
    (tags : List String) : "latest" ∉ truncatedVersionTags less tags := by
  intro h
  have h1 := List.take_subset 2 _ h
  have h2 := (mem_goSort less _ _).mp h1
  have h3 := (List.mem_filter.mp h2).2
  simp at h3

/-- Members of the truncated version-tag list come from the input tags. -/
theorem mem_truncated (less : String → String → Bool) (x : String)
    (tags : List String) (h : x ∈ truncatedVersionTags less tags) :
    x ∈ tags := by
  have h1 := List.take_subset 2 _ h
  have h2 := (mem_goSort less _ _).mp h1
  exact (List.mem_filter.mp h2).1

/-- The final loop of main.go's `filterTags` is extensionally the same
guarded prepend as part_000's: "latest" is prepended exactly when a
"latest" tag occurs and both digests are nonempty and equal. -/
theorem latestLoopA_eq (ld vd : String) (vt : List String)
    (tags : List String) :
    latestLoopA ld vd vt tags =
      if "latest" ∈ tags ∧ ld ≠ "" ∧ vd ≠ "" ∧ ld = vd then
        "latest" :: vt
      else vt := by
  induction tags with
  | nil => simp [latestLoopA]
  | cons t rest ih =>
    simp only [latestLoopA]
    by_cases h1 : t = "latest" ∧ ld ≠ "" ∧ vd ≠ ""
    · rw [if_pos h1]
      by_cases h2 : ld = vd
      · rw [if_pos h2, if_pos ⟨by simp [h1.1], h1.2.1, h1.2.2, h2⟩]
      · rw [if_neg h2, ih, if_neg (fun hc => h2 hc.2.2.2),
          if_neg (fun hc => h2 hc.2.2.2)]
    · rw [if_neg h1, ih]
      refine if_congr ?_ rfl rfl
      constructor
      · exact fun hc => ⟨List.mem_cons_of_mem t hc.1, hc.2⟩
      · rintro ⟨hm, hc⟩
        rcases List.mem_cons.mp hm with he | hm
        · exact absurd ⟨he.symm, hc.1, hc.2.1⟩ h1
        · exact ⟨hm, hc⟩

/-- Both variants of `filterTags` in closed form. -/
theorem filterTagsA_eq (tags : List String) (ld vd : String) :
    filterTagsA tags ld vd =
      if tags = [] then []
      else if "latest" ∈ tags ∧ ld ≠ "" ∧ vd ≠ "" ∧ ld = vd then
        "latest" :: truncatedVersionTags lessA tags
      else truncatedVersionTags lessA tags := by
  unfold filterTagsA
  by_cases h : tags = []
  · simp [h]
  · rw [if_neg h, if_neg h, latestLoopA_eq]

/-- Variant B of `filterTags` with the let inlined. -/
theorem filterTagsB_eq (tags : List String) (ld vd : String) :
    filterTagsB tags ld vd =
      if tags = [] then []
      else if "latest" ∈ tags ∧ ld ≠ "" ∧ vd ≠ "" ∧ ld = vd then
        "latest" :: truncatedVersionTags lessB tags
      else truncatedVersionTags lessB tags := rfl

/-- C1: for every group of records sharing a name (its tag list `tags`
together with the computed `latestDigest` and `versionDigest`), the tag
"latest" appears in the filtered output iff a "latest" record existed in
the group and `latestDigest` and `versionDigest` are nonempty and equal;
when it appears it is the first element, prepended to the
already-truncated version-tag list; otherwise "latest" is absent even
when present in the input.  Proved for both implementation variants. -/
theorem c1_latest_inclusion_iff (tags : List String) (ld vd : String) :
    ("latest" ∈ filterTagsA tags ld vd ↔
      "latest" ∈ tags ∧ ld ≠ "" ∧ vd ≠ "" ∧ ld = vd) ∧
    ("latest" ∈ filterTagsB tags ld vd ↔
      "latest" ∈ tags ∧ ld ≠ "" ∧ vd ≠ "" ∧ ld = vd) ∧
    ("latest" ∈ tags ∧ ld ≠ "" ∧ vd ≠ "" ∧ ld = vd →
      filterTagsA tags ld vd = "latest" :: truncatedVersionTags lessA tags ∧
      filterTagsB tags ld vd = "latest" :: truncatedVersionTags lessB tags) := by
  rw [filterTagsA_eq, filterTagsB_eq]
  by_cases htags : tags = []
  · subst htags
    simp
  · rw [if_neg htags, if_neg htags]
    by_cases hc : "latest" ∈ tags ∧ ld ≠ "" ∧ vd ≠ "" ∧ ld = vd
    · rw [if_pos hc, if_pos hc]
      refine ⟨⟨fun _ => hc, fun _ => List.mem_cons_self _ _⟩,
        ⟨fun _ => hc, fun _ => List.mem_cons_self _ _⟩, fun _ => ⟨rfl, rfl⟩⟩
    · rw [if_neg hc, if_neg hc]
      exact ⟨⟨fun h => absurd h (latest_not_mem_truncated lessA tags),
          fun h => absurd h hc⟩,
        ⟨fun h => absurd h (latest_not_mem_truncated lessB tags),
          fun h => absurd h hc⟩,
        fun h => absurd h hc⟩

/-- Witness for C1 on the concrete group of the repository's test
(tags ["latest","1","2"], both digests "sha256-2"). -/
theorem c1_latest_inclusion_iff_witness :
    ("latest" ∈ filterTagsA ["latest", "1", "2"] "sha256-2" "sha256-2") ∧
    filterTagsA ["latest", "1", "2"] "sha256-2" "sha256-2" =
      "latest" :: truncatedVersionTags lessA ["latest", "1", "2"] ∧
    filterTagsB ["latest", "1", "2"] "sha256-2" "sha256-2" =
      "latest" :: truncatedVersionTags lessB ["latest", "1", "2"] := by
  have h := c1_latest_inclusion_iff ["latest", "1", "2"] "sha256-2" "sha256-2"
  have hc : "latest" ∈ (["latest", "1", "2"] : List String) ∧
      ("sha256-2" : String) ≠ "" ∧ ("sha256-2" : String) ≠ "" ∧
      ("sha256-2" : String) = "sha256-2" := by decide
  exact ⟨h.1.mpr hc, (h.2.2 hc).1, (h.2.2 hc).2⟩

/-- C10: the filter output contains "latest" at most once (even when the
input holds several "latest" entries), only as the first element, and
every other element of the output occurs in the input tag list.  Proved
for both implementation variants. -/
theorem c10_latest_once_first (tags : List String) (ld vd : String) :
    ((filterTagsA tags ld vd).count "latest" ≤ 1 ∧
      ("latest" ∈ filterTagsA tags ld vd →
        ∃ rest, filterTagsA tags ld vd = "latest" :: rest ∧
          "latest" ∉ rest) ∧
      (∀ x ∈ filterTagsA tags ld vd, x ≠ "latest" → x ∈ tags)) ∧
    ((filterTagsB tags ld vd).count "latest" ≤ 1 ∧
      ("latest" ∈ filterTagsB tags ld vd →
        ∃ rest, filterTagsB tags ld vd = "latest" :: rest ∧
          "latest" ∉ rest) ∧
      (∀ x ∈ filterTagsB tags ld vd, x ≠ "latest" → x ∈ tags)) := by
  rw [filterTagsA_eq, filterTagsB_eq]
  by_cases htags : tags = []
  · subst htags; simp
  · rw [if_neg htags, if_neg htags]
    by_cases hc : "latest" ∈ tags ∧ ld ≠ "" ∧ vd ≠ "" ∧ ld = vd
    · rw [if_pos hc, if_pos hc]
      refine ⟨⟨?_, fun _ => ⟨_, rfl, latest_not_mem_truncated lessA tags⟩, ?_⟩,
        ⟨?_, fun _ => ⟨_, rfl, latest_not_mem_truncated lessB tags⟩, ?_⟩⟩
      · rw [List.count_cons_self,
          List.count_eq_zero.mpr (latest_not_mem_truncated lessA tags)]
      · intro x hx hne
        rcases List.mem_cons.mp hx with he | hm
        · exact absurd he hne
        · exact mem_truncated lessA x tags hm
      · rw [List.count_cons_self,
          List.count_eq_zero.mpr (latest_not_mem_truncated lessB tags)]
      · intro x hx hne
        rcases List.mem_cons.mp hx with he | hm
        · exact absurd he hne
        · exact mem_truncated lessB x tags hm
    · rw [if_neg hc, if_neg hc]
      refine ⟨⟨?_, fun h => absurd h (latest_not_mem_truncated lessA tags),
          fun x hx _ => mem_truncated lessA x tags hx⟩,
        ⟨?_, fun h => absurd h (latest_not_mem_truncated lessB tags),
          fun x hx _ => mem_truncated lessB x tags hx⟩⟩
      · rw [List.count_eq_zero.mpr (latest_not_mem_truncated lessA tags)]
        exact Nat.zero_le 1
      · rw [List.count_eq_zero.mpr (latest_not_mem_truncated lessB tags)]
        exact Nat.zero_le 1

/-- Witness for C10 on an input in which "latest" occurs twice. -/
theorem c10_latest_once_first_witness :
    (filterTagsA ["latest", "latest", "2"] "d" "d").count "latest" ≤ 1 ∧
    ("2" : String) ∈ (["latest", "latest", "2"] : List String) := by
  refine ⟨(c10_latest_once_first ["latest", "latest", "2"] "d" "d").1.1, ?_⟩
  decide

/-- Length bound of the truncated version-tag list. -/
theorem truncated_length_le (less : String → String → Bool)
    (tags : List String) : (truncatedVersionTags less tags).length ≤ 2 := by
  unfold truncatedVersionTags
  exact (List.length_take_le 2 _).trans (by omega)

/-- C4: the filter emits at most 3 tags per image name — the sorted
version-tag list is truncated to at most 2 entries before the optional
"latest" tag is prepended.  Proved for both filter variants and for
both `processImages` variants over every input record set. -/
theorem c4_at_most_three_tags :
    (∀ (tags : List String) (ld vd : String),
        (filterTagsA tags ld vd).length ≤ 3 ∧
        (filterTagsB tags ld vd).length ≤ 3) ∧
    (∀ records : List SearchResult,
        ((processImagesA records).all fun p => decide (p.2.length ≤ 3)) ∧
        ((processImagesB records).all fun p => decide (p.2.length ≤ 3))) := by
  have hlen : ∀ (tags : List String) (ld vd : String),
      (filterTagsA tags ld vd).length ≤ 3 ∧
      (filterTagsB tags ld vd).length ≤ 3 := by
    intro tags ld vd
    rw [filterTagsA_eq, filterTagsB_eq]
    by_cases htags : tags = []
    · simp [htags]
    · rw [if_neg htags, if_neg htags]
      constructor
      · split
        · simpa using (truncated_length_le lessA tags)
        · exact (truncated_length_le lessA tags).trans (by omega)
      · split
        · simpa using (truncated_length_le lessB tags)
        · exact (truncated_length_le lessB tags).trans (by omega)
  refine ⟨hlen, fun records => ⟨?_, ?_⟩⟩
  · rw [List.all_eq_true]
    intro p hp
    rcases List.mem_filterMap.mp hp with ⟨q, _, hq⟩
    by_cases hft : filterTagsA (q.2.map fun r => r.version)
        (digestLoop q.2 "" "" 0).1 (digestLoop q.2 "" "" 0).2 = []
    · simp only [processImagesA, hft] at hq
      simp at hq
    · simp only [processImagesA, if_neg hft] at hq
      cases Option.some.inj hq
      exact decide_eq_true_eq.mpr (hlen _ _ _).1
  · rw [List.all_eq_true]
    intro p hp
    rcases List.mem_map.mp hp with ⟨q, _, hq⟩
    cases hq
    exact decide_eq_true_eq.mpr (hlen _ _ _).2

/-- C8: applying the filter to the empty record sequence returns the
empty result mapping, in both variants. -/
theorem c8_empty_input :
    processImagesA [] = [] ∧ processImagesB [] = [] := by
  constructor <;> rfl

/-- C3 counterexample: the claim says the comparator falls back to
lexicographic (byte-wise) descending string comparison whenever a tag
fails to parse as an integer; on the pair ("b", "a") that fallback
returns true (since "a" < "b"), but main.go's comparator returns false
for every pair with an unparseable tag. -/
theorem c3_comparator_counterexample :
    lessA "b" "a" = false ∧ goStringLt "a" "b" = true := by
  exact ⟨rfl, by decide⟩

/-- C3 amended: both comparators order integer-parseable pairs
numerically descending; for a pair with an unparseable tag, part_000's
comparator falls back to lexicographic (byte-wise) descending string
comparison as the claim states, while main.go's comparator instead
reports false (leaving such pairs in their current order).  The input
version tags ["1","2","10"] sort and truncate to ["10","2"] under both
variants. -/
theorem c3_comparator_amended :
    (∀ (s t : String) (a b : Int), atoi s = some a → atoi t = some b →
        lessA s t = decide (b < a) ∧ lessB s t = decide (b < a)) ∧
    (∀ s t : String, atoi s = none ∨ atoi t = none →
        lessA s t = false ∧ lessB s t = goStringLt t s) ∧
    truncatedVersionTags lessA ["1", "2", "10"] = ["10", "2"] ∧
    truncatedVersionTags lessB ["1", "2", "10"] = ["10", "2"] := by
  refine ⟨?_, ?_, by decide, by decide⟩
  · intro s t a b hs ht
    constructor <;> simp [lessA, lessB, hs, ht]
  · intro s t h
    rcases h with h | h
    · cases ht : atoi t <;> simp [lessA, lessB, h, ht]
    · cases hs : atoi s <;> simp [lessA, lessB, h, hs]

/-- Witness for C3 amended at the concrete pairs ("5","3") (both parse)
and ("x","1") (first unparseable). -/
theorem c3_comparator_amended_witness :
    lessA "5" "3" = decide ((3 : Int) < 5) ∧
    lessB "x" "1" = goStringLt "1" "x" := by
  exact ⟨(c3_comparator_amended.1 "5" "3" 5 3 (by decide) (by decide)).1,
    (c3_comparator_amended.2.1 "x" "1" (Or.inl (by decide))).2⟩

/-- The version-digest component of the digest loop, for any starting
highest-version value `hi`: it is the digest of the first record
attaining the largest parseable version value, provided that value
exceeds `hi`, and the initial digest otherwise. -/
theorem digestLoop_bestFrom (g : List SearchResult) :
    ∀ (ld vd : String) (hi : Int),
      (digestLoop g ld vd hi).2 =
        match bestFrom g with
        | some p => if hi < p.1 then p.2 else vd
        | none => vd := by
  induction g with
  | nil => intro ld vd hi; rfl
  | cons r rest ih =>
    intro ld vd hi
    by_cases hlat : r.version = "latest"
    · have hn : atoi r.version = none := by rw [hlat]; rfl
      simp only [digestLoop, if_pos hlat, bestFrom, hn]
      exact ih _ _ _
    · simp only [digestLoop, if_neg hlat]
      cases hv : atoi r.version with
      | none =>
        simp only [bestFrom, hv]
        exact ih _ _ _
      | some v =>
        simp only [bestFrom, hv]
        cases hb : bestFrom rest with
        | none =>
          dsimp only
          by_cases hhi : hi < v
          · rw [if_pos hhi, ih, hb]
            simp [hhi]
          · rw [if_neg hhi, ih, hb]
            simp [hhi]
        | some p =>
          obtain ⟨w, s⟩ := p
          dsimp only
          by_cases hwv : w ≤ v
          · rw [if_pos hwv]
            by_cases hhi : hi < v
            · rw [if_pos hhi, ih, hb]
              simp only []
              rw [if_neg (by omega : ¬ v < w), if_pos hhi]
            · rw [if_neg hhi, ih, hb]
              simp only []
              rw [if_neg (by omega : ¬ hi < w), if_neg hhi]
          · rw [if_neg hwv]
            by_cases hhi : hi < v
            · rw [if_pos hhi, ih, hb]
              simp only []
              rw [if_pos (by omega : v < w), if_pos (by omega : hi < w)]
            · rw [if_neg hhi, ih, hb]

/-- C2 counterexample: for the single-record group [("img","0","d")] the
claim requires `versionDigest` to be "d" (the version "0" parses as the
numerically-largest non-negative integer of the group and its digest is
nonempty), but main.go's loop — whose highest-version tracker starts at
0 and only updates on a strictly larger value — leaves `versionDigest`
empty. -/
theorem c2_zero_version_counterexample :
    (digestLoop [⟨"img", "0", "d"⟩] "" "" 0).2 = "" ∧
    atoi "0" = some 0 ∧ ("d" : String) ≠ "" := by
  exact ⟨rfl, rfl, by decide⟩

/-- C2 amended: in part_000 (tracker initialised to -1) `versionDigest`
is the digest of the first record in group order attaining the
numerically-largest parseable version value, whenever that value is
non-negative, and is empty otherwise — ties keep the first record and
non-parseable tags never determine it (`bestFrom` picks the first
record attaining the maximum among parseable versions).  In main.go
(tracker initialised to 0) the same holds with "non-negative" replaced
by "strictly positive": a group whose largest parseable version is 0
leaves `versionDigest` empty.  The two closed conjuncts exhibit the
tie-breaking ("2" then "02", first digest kept) and a non-parseable tag
("x") not competing. -/
theorem c2_version_digest_amended (g : List SearchResult) :
    ((digestLoop g "" "" 0).2 =
      match bestFrom g with
      | some p => if 0 < p.1 then p.2 else ""
      | none => "") ∧
    ((digestLoop g "" "" (-1)).2 =
      match bestFrom g with
      | some p => if 0 ≤ p.1 then p.2 else ""
      | none => "") ∧
    (digestLoop [⟨"i", "2", "d1"⟩, ⟨"i", "02", "d2"⟩] "" "" (-1)).2 = "d1" ∧
    (digestLoop [⟨"i", "7", "d1"⟩, ⟨"i", "x", "d2"⟩] "" "" (-1)).2 = "d1" := by
  refine ⟨by rw [digestLoop_bestFrom], ?_, rfl, rfl⟩
  rw [digestLoop_bestFrom]
  cases hb : bestFrom g with
  | none => rfl
  | some p =>
    dsimp only
    by_cases h : 0 ≤ p.1
    · rw [if_pos (by omega : (-1 : Int) < p.1), if_pos h]
    · rw [if_neg (by omega : ¬ (-1 : Int) < p.1), if_neg h]

/-! ### Aggregation lemmas -/

/-- Processing a concatenation of item lists threads the seen-set and
the accumulator. -/
theorem processItems_append (l1 l2 : List Component) :
    ∀ (seen : List String) (acc : List SearchResult),
      processItems (l1 ++ l2) seen acc =
        processItems l2 (processItems l1 seen acc).1
          (processItems l1 seen acc).2 := by
  induction l1 with
  | nil => intro seen acc; rfl
  | cons c rest ih =>
    intro seen acc
    simp only [List.cons_append, processItems, List.append_eq]
    by_cases h : imageKey c ∈ seen
    · rw [if_pos h, if_pos h, ih]
    · rw [if_neg h, if_neg h, ih]

/-- On a response list whose pagination succeeds, the pattern loop
returns exactly the state reached by processing the consumed items. -/
theorem runPattern_consumed (ps : List (Except Err Page)) :
    patternRunOk ps = true →
    ∀ (seen : List String) (acc : List SearchResult),
      runPattern ps seen acc =
        Except.ok (processItems (consumedItems ps) seen acc) := by
  induction ps with
  | nil => intro hok; cases hok
  | cons q rest ih =>
    intro hok seen acc
    cases q with
    | error e => simp [patternRunOk] at hok
    | ok pg =>
      simp only [runPattern, consumedItems]
      by_cases ht : pg.continuationToken = ""
      · rw [if_pos ht, if_pos ht]
      · rw [if_neg ht, if_neg ht, processItems_append]
        exact ih (by simpa [patternRunOk, if_neg ht] using hok) _ _

/-- When the pagination of every pattern succeeds, the whole search loop
returns the records of the flattened consumed component stream. -/
theorem searchLoop_consumed (patterns : List (List (Except Err Page))) :
    (∀ ps ∈ patterns, patternRunOk ps = true) →
    ∀ (seen : List String) (acc : List SearchResult),
      searchLoop patterns seen acc =
        Except.ok (processItems ((patterns.map consumedItems).flatten)
          seen acc).2 := by
  induction patterns with
  | nil => intro _ seen acc; rfl
  | cons ps rest ih =>
    intro hok seen acc
    simp only [searchLoop, List.map_cons, List.flatten_cons]
    rw [runPattern_consumed ps (hok ps (List.mem_cons_self _ _))]
    rw [processItems_append]
    exact ih (fun p hp => hok p (List.mem_cons_of_mem _ hp)) _ _

/-- A failing page request aborts the pagination loop of its pattern
with that error, whatever came before on the same pattern. -/
theorem runPattern_error (okPages : List (Except Err Page)) (e : Err)
    (tail : List (Except Err Page)) :
    (∀ q ∈ okPages, okWithToken q = true) →
    ∀ (seen : List String) (acc : List SearchResult),
      runPattern (okPages ++ Except.error e :: tail) seen acc =
        Except.error e := by
  induction okPages with
  | nil => intro _ seen acc; rfl
  | cons q rest ih =>
    intro hok seen acc
    cases q with
    | error e2 =>
      have := hok _ (List.mem_cons_self _ _)
      simp [okWithToken] at this
    | ok pg =>
      have htok : ¬ pg.continuationToken = "" := by
        have := hok _ (List.mem_cons_self _ _)
        simpa [okWithToken] using this
      simp only [List.cons_append, runPattern, if_neg htok]
      exact ih (fun p hp => hok p (List.mem_cons_of_mem _ hp)) _ _

/-- A failing pattern aborts the whole search loop with its error, after
any number of successful patterns. -/
theorem searchLoop_error (pre : List (List (Except Err Page)))
    (bad : List (Except Err Page)) (e : Err)
    (post : List (List (Except Err Page))) :
    (∀ ps ∈ pre, patternRunOk ps = true) →
    (∀ (seen : List String) (acc : List SearchResult),
        runPattern bad seen acc = Except.error e) →
    ∀ (seen : List String) (acc : List SearchResult),
      searchLoop (pre ++ bad :: post) seen acc = Except.error e := by
  induction pre with
  | nil =>
    intro _ hbad seen acc
    simp only [List.nil_append, searchLoop, hbad]
  | cons ps rest ih =>
    intro hok hbad seen acc
    simp only [List.cons_append, searchLoop]
    rw [runPattern_consumed ps (hok ps (List.mem_cons_self _ _))]
    exact ih (fun p hp => hok p (List.mem_cons_of_mem _ hp)) hbad _ _

/-- C6: if any page request of the aggregation fails — after any number
of fully successful patterns and any number of successfully consumed
pages of the current pattern — the entire aggregation returns that
error, so no records (in particular none collected from earlier pages
or patterns) are returned. -/
theorem c6_error_aborts (pre : List (List (Except Err Page)))
    (okPages : List (Except Err Page)) (e : Err)
    (tail : List (Except Err Page))
    (post : List (List (Except Err Page)))
    (hpre : ∀ ps ∈ pre, patternRunOk ps = true)
    (hok : ∀ q ∈ okPages, okWithToken q = true) :
    SearchImages (pre ++ (okPages ++ Except.error e :: tail) :: post) =
      Except.error e := by
  unfold SearchImages
  exact searchLoop_error pre _ e post hpre
    (runPattern_error okPages e tail hok) [] []

/-- Witness for C6: one successful single-page pattern, then a pattern
whose second page request fails; the whole aggregation returns the
error even though the first pattern contributed a record. -/
theorem c6_error_aborts_witness :
    SearchImages
      [[Except.ok ⟨[⟨"n", "1", []⟩], ""⟩],
       [Except.ok ⟨[⟨"m", "2", []⟩], "tok"⟩,
        Except.error (Err.http "boom")]] =
      Except.error (Err.http "boom") := by
  exact c6_error_aborts [[Except.ok ⟨[⟨"n", "1", []⟩], ""⟩]]
    [Except.ok ⟨[⟨"m", "2", []⟩], "tok"⟩] (Err.http "boom") [] []
    (by decide) (by decide)


/-- Splitting at a separator absent from both left parts is injective. -/
theorem colon_sep_inj :
    ∀ (a c b d : List Char), ':' ∉ a → ':' ∉ c →
      a ++ ':' :: b = c ++ ':' :: d → a = c ∧ b = d := by
  intro a
  induction a with
  | nil =>
    intro c b d _ hc h
    cases c with
    | nil =>
      simp only [List.nil_append] at h
      exact ⟨rfl, (List.cons.injEq _ _ _ _ ▸ h).2⟩
    | cons y ys =>
      simp only [List.nil_append, List.cons_append, List.cons.injEq] at h
      exact absurd (h.1 ▸ List.mem_cons_self y ys) hc
  | cons x xs ih =>
    intro c b d ha hc h
    cases c with
    | nil =>
      simp only [List.cons_append, List.nil_append, List.cons.injEq] at h
      exact absurd (h.1 ▸ List.mem_cons_self x xs) ha
    | cons y ys =>
      simp only [List.cons_append, List.cons.injEq] at h
      have hx : ':' ∉ xs := fun hm => ha (List.mem_cons_of_mem x hm)
      have hy : ':' ∉ ys := fun hm => hc (List.mem_cons_of_mem y hm)
      rcases ih ys b d hx hy h.2 with ⟨h1, h2⟩
      exact ⟨by rw [h.1, h1], h2⟩

/-- For names free of the separator character, the joined key determines
the (name, version) pair. -/
theorem joinKey_inj (n1 v1 n2 v2 : String)
    (h1 : (':' : Char) ∉ n1.data) (h2 : (':' : Char) ∉ n2.data)
    (h : n1 ++ ":" ++ v1 = n2 ++ ":" ++ v2) : n1 = n2 ∧ v1 = v2 := by
  have hd : n1.data ++ ':' :: v1.data = n2.data ++ ':' :: v2.data := by
    have := congrArg String.data h
    simpa [String.data_append] using this
  rcases colon_sep_inj n1.data n2.data v1.data v2.data h1 h2 hd with ⟨e1, e2⟩
  exact ⟨String.ext e1, String.ext e2⟩

/-- Over components whose names are free of the separator, the key-based
deduplication of the implementation agrees with deduplication by the
(name, version) pair. -/
theorem processItems_pairDedup :
    ∀ (comps : List Component) (seenP : List (String × String))
      (acc : List SearchResult),
      (∀ c ∈ comps, (':' : Char) ∉ c.name.data) →
      (∀ p ∈ seenP, (':' : Char) ∉ p.1.data) →
      (processItems comps (seenP.map joinKey) acc).2 =
        acc ++ pairDedup comps seenP := by
  intro comps
  induction comps with
  | nil => intro seenP acc _ _; simp [processItems, pairDedup]
  | cons c rest ih =>
    intro seenP acc hc hs
    have hcn : (':' : Char) ∉ c.name.data := hc c (List.mem_cons_self _ _)
    have hmem : imageKey c ∈ seenP.map joinKey ↔
        (c.name, c.version) ∈ seenP := by
      constructor
      · intro h
        rcases List.mem_map.mp h with ⟨p, hp, he⟩
        rcases joinKey_inj p.1 p.2 c.name c.version (hs p hp) hcn he
          with ⟨e1, e2⟩
        have : p = (c.name, c.version) := Prod.ext e1 e2
        exact this ▸ hp
      · intro h
        exact List.mem_map.mpr ⟨(c.name, c.version), h, rfl⟩
    simp only [processItems, pairDedup]
    by_cases h : (c.name, c.version) ∈ seenP
    · rw [if_pos (hmem.mpr h), if_pos h]
      exact ih seenP acc (fun x hx => hc x (List.mem_cons_of_mem _ hx)) hs
    · rw [if_neg (fun hk => h (hmem.mp hk)), if_neg h]
      have hrw : imageKey c :: seenP.map joinKey =
          ((c.name, c.version) :: seenP).map joinKey := by
        simp [joinKey, imageKey]
      rw [hrw, ih ((c.name, c.version) :: seenP) (acc ++ [toRecord c])
        (fun x hx => hc x (List.mem_cons_of_mem _ hx))
        (fun p hp => by
          rcases List.mem_cons.mp hp with he | hm
          · rw [he]; exact hcn
          · exact hs p hm)]
      simp

/-- C5 counterexample: the components ("a:b", "c") and ("a", "b:c") have
distinct (name, version) pairs but the same joined key "a:b:c", so the
aggregator drops the second although its pair was never seen; the claim
that an entry is dropped exactly when its (name, version) pair was seen
earlier, and that each distinct pair yields exactly one record, fails. -/
theorem c5_key_collision_counterexample :
    SearchImages [[Except.ok ⟨[⟨"a:b", "c", []⟩, ⟨"a", "b:c", []⟩], ""⟩]] =
      Except.ok [⟨"a:b", "c", ""⟩] ∧
    (("a:b", "c") : String × String) ≠ ("a", "b:c") := by
  exact ⟨rfl, by decide⟩

/-- C5 amended: the aggregator drops an entry exactly when its joined
key `name ++ ":" ++ version` was already seen across all pages and
patterns of the invocation — for a successful invocation the result is
the deduplicated record stream of all consumed pages in order — and
whenever no component name contains the separator character, this
coincides with dropping exactly the entries whose (name, version) pair
was seen earlier, each distinct pair yielding exactly one record in
first-encountered order. -/
theorem c5_dedup_amended :
    (∀ patterns : List (List (Except Err Page)),
        (∀ ps ∈ patterns, patternRunOk ps = true) →
        SearchImages patterns =
          Except.ok (aggregate ((patterns.map consumedItems).flatten))) ∧
    (∀ comps : List Component,
        (∀ c ∈ comps, (':' : Char) ∉ c.name.data) →
        aggregate comps = pairDedup comps []) := by
  constructor
  · intro patterns hok
    unfold SearchImages
    rw [searchLoop_consumed patterns hok]
    rfl
  · intro comps hc
    have := processItems_pairDedup comps [] [] hc (by simp)
    simpa [aggregate] using this

/-- Witness for C5 amended: a two-pattern invocation re-reporting the
pair ("n","1") and a duplicate-bearing component stream. -/
theorem c5_dedup_amended_witness :
    SearchImages [[Except.ok ⟨[⟨"n", "1", []⟩], ""⟩],
        [Except.ok ⟨[⟨"n", "1", []⟩, ⟨"n", "2", []⟩], ""⟩]] =
      Except.ok (aggregate
        (([[Except.ok (⟨[⟨"n", "1", []⟩], ""⟩ : Page)],
           [Except.ok (⟨[⟨"n", "1", []⟩, ⟨"n", "2", []⟩], ""⟩ : Page)]].map
          consumedItems).flatten)) ∧
    aggregate [⟨"n", "1", []⟩, ⟨"n", "1", []⟩, ⟨"m", "1", []⟩] =
      pairDedup [⟨"n", "1", []⟩, ⟨"n", "1", []⟩, ⟨"m", "1", []⟩] [] := by
  exact ⟨c5_dedup_amended.1 _ (by decide), c5_dedup_amended.2 _ (by decide)⟩

/-- Every record the aggregation produces comes from some component of
the stream, with the digest drawn from that component's first asset. -/
theorem processItems_mem :
    ∀ (comps : List Component) (seen : List String)
      (acc : List SearchResult) (r : SearchResult),
      r ∈ (processItems comps seen acc).2 →
      r ∈ acc ∨ ∃ c ∈ comps, r = toRecord c := by
  intro comps
  induction comps with
  | nil =>
    intro seen acc r h
    exact Or.inl (by simpa [processItems] using h)
  | cons c rest ih =>
    intro seen acc r h
    simp only [processItems] at h
    by_cases hk : imageKey c ∈ seen
    · rw [if_pos hk] at h
      rcases ih _ _ _ h with h1 | ⟨c2, hc2, he⟩
      · exact Or.inl h1
      · exact Or.inr ⟨c2, List.mem_cons_of_mem _ hc2, he⟩
    · rw [if_neg hk] at h
      rcases ih _ _ _ h with h1 | ⟨c2, hc2, he⟩
      · rcases List.mem_append.mp h1 with h2 | h2
        · exact Or.inl h2
        · exact Or.inr ⟨c, List.mem_cons_self _ _, by simpa using h2⟩
      · exact Or.inr ⟨c2, List.mem_cons_of_mem _ hc2, he⟩

/-- C7: every aggregated record maps a component entry to its name, its
version, and the sha256 checksum of the entry's first asset; an entry
with no assets yields the record with an empty digest rather than a
failure. -/
theorem c7_first_asset_digest :
    (∀ (comps : List Component) (r : SearchResult), r ∈ aggregate comps →
        ∃ c ∈ comps, r.name = c.name ∧ r.version = c.version ∧
          r.sha256 = match c.assets with
                     | [] => ""
                     | a :: _ => a.checksum.sha256) ∧
    aggregate [⟨"img", "1", []⟩] = [⟨"img", "1", ""⟩] := by
  constructor
  · intro comps r h
    rcases processItems_mem comps [] [] r (by simpa [aggregate] using h)
      with h1 | ⟨c, hc, he⟩
    · simp at h1
    · exact ⟨c, hc, by rw [he]; exact ⟨rfl, rfl, rfl⟩⟩
  · rfl

/-- Witness for C7 on a one-component stream with a single asset. -/
theorem c7_first_asset_digest_witness :
    (⟨"n", "v", "s"⟩ : SearchResult) ∈
      aggregate [⟨"n", "v", [⟨⟨"s"⟩⟩]⟩] ∧
    ∃ c ∈ [(⟨"n", "v", [⟨⟨"s"⟩⟩]⟩ : Component)],
      (⟨"n", "v", "s"⟩ : SearchResult).name = c.name ∧
      (⟨"n", "v", "s"⟩ : SearchResult).version = c.version ∧
      (⟨"n", "v", "s"⟩ : SearchResult).sha256 =
        match c.assets with
        | [] => ""
        | a :: _ => a.checksum.sha256 := by
  exact ⟨by decide, c7_first_asset_digest.1 _ _ (by decide)⟩

/-! ### Equivalence machinery for the two variants -/

/-- Keys produced by `firstKeys` come from the input list. -/
theorem firstKeys_sub :
    ∀ (l seen : List String) (x : String), x ∈ firstKeys seen l → x ∈ l := by
  intro l
  induction l with
  | nil => intro seen x h; simp [firstKeys] at h
  | cons n rest ih =>
    intro seen x h
    simp only [firstKeys] at h
    by_cases hn : n ∈ seen
    · rw [if_pos hn] at h
      exact List.mem_cons_of_mem _ (ih _ _ h)
    · rw [if_neg hn] at h
      rcases List.mem_cons.mp h with he | hm
      · exact he ▸ List.mem_cons_self _ _
      · exact List.mem_cons_of_mem _ (ih _ _ hm)

/-- The two comparators agree on pairs that both parse. -/
theorem less_agree (s t : String) (hs : (atoi s).isSome = true)
    (ht : (atoi t).isSome = true) : lessA s t = lessB s t := by
  rcases Option.isSome_iff_exists.mp hs with ⟨a, ha⟩
  rcases Option.isSome_iff_exists.mp ht with ⟨b, hb⟩
  simp [lessA, lessB, ha, hb]

/-- Insertion depends on the comparator only at the inserted element
against the accumulated elements. -/
theorem insertRevAux_congr (less1 less2 : String → String → Bool)
    (x : String) :
    ∀ acc : List String, (∀ y ∈ acc, less1 x y = less2 x y) →
      insertRevAux less1 x acc = insertRevAux less2 x acc := by
  intro acc
  induction acc with
  | nil => intro _; rfl
  | cons y ys ih =>
    intro h
    simp only [insertRevAux]
    rw [h y (List.mem_cons_self _ _)]
    by_cases hy : less2 x y = true
    · rw [if_pos hy, if_pos hy,
        ih (fun z hz => h z (List.mem_cons_of_mem _ hz))]
    · rw [if_neg hy, if_neg hy]

/-- The insertion fold depends on the comparator only at pairs drawn
from the input and the accumulator. -/
theorem foldl_ins_congr (less1 less2 : String → String → Bool) :
    ∀ (l acc : List String),
      (∀ x ∈ l, ∀ y, (y ∈ acc ∨ y ∈ l) → less1 x y = less2 x y) →
      l.foldl (fun a x => insertRevAux less1 x a) acc =
        l.foldl (fun a x => insertRevAux less2 x a) acc := by
  intro l
  induction l with
  | nil => intro acc _; rfl
  | cons x xs ih =>
    intro acc h
    simp only [List.foldl_cons]
    have he : insertRevAux less1 x acc = insertRevAux less2 x acc :=
      insertRevAux_congr less1 less2 x acc
        (fun y hy => h x (List.mem_cons_self _ _) y (Or.inl hy))
    rw [he]
    apply ih
    intro x2 hx2 y hy
    rcases hy with hy | hy
    · have hyc : y ∈ x :: acc :=
        (insertRevAux_perm less2 x acc).mem_iff.mp hy
      rcases List.mem_cons.mp hyc with he2 | hm
      · exact h x2 (List.mem_cons_of_mem _ hx2) y
          (Or.inr (he2 ▸ List.mem_cons_self x xs))
      · exact h x2 (List.mem_cons_of_mem _ hx2) y (Or.inl hm)
    · exact h x2 (List.mem_cons_of_mem _ hx2) y
        (Or.inr (List.mem_cons_of_mem _ hy))

/-- Sorting depends on the comparator only at pairs from the list. -/
theorem goSort_congr (less1 less2 : String → String → Bool)
    (l : List String) (h : ∀ x ∈ l, ∀ y ∈ l, less1 x y = less2 x y) :
    goSort less1 l = goSort less2 l := by
  unfold goSort
  rw [foldl_ins_congr less1 less2 l []
    (fun x hx y hy => by
      rcases hy with hy | hy
      · simp at hy
      · exact h x hx y hy)]

/-- When every non-"latest" version of a group parses to a positive
integer, the main.go digest loop (tracker start 0) and the part_000
digest loop (tracker start -1) coincide. -/
theorem digestLoop_pos_init (g : List SearchResult)
    (h : ∀ r ∈ g, r.version ≠ "latest" → posParse r.version = true) :
    ∀ ld vd : String, digestLoop g ld vd 0 = digestLoop g ld vd (-1) := by
  induction g with
  | nil => intro ld vd; rfl
  | cons r rest ih =>
    intro ld vd
    simp only [digestLoop]
    by_cases hlat : r.version = "latest"
    · rw [if_pos hlat, if_pos hlat]
      exact ih (fun x hx => h x (List.mem_cons_of_mem _ hx)) _ _
    · rw [if_neg hlat, if_neg hlat]
      have hp := h r (List.mem_cons_self _ _) hlat
      cases hv : atoi r.version with
      | none => simp [posParse, hv] at hp
      | some v =>
        simp only [hv]
        have hv0 : 0 < v := by simpa [posParse, hv] using hp
        rw [if_pos hv0, if_pos (by omega : (-1 : Int) < v)]

/-- When every non-"latest" tag parses, the two filter variants agree. -/
theorem filterTags_eq_of_parse (tags : List String) (ld vd : String)
    (h : ∀ x ∈ tags, x ≠ "latest" → (atoi x).isSome = true) :
    filterTagsA tags ld vd = filterTagsB tags ld vd := by
  have hsort : goSort lessA (tags.filter fun t => decide (t ≠ "latest")) =
      goSort lessB (tags.filter fun t => decide (t ≠ "latest")) := by
    apply goSort_congr
    intro x hx y hy
    have hx2 := List.mem_filter.mp hx
    have hy2 := List.mem_filter.mp hy
    exact less_agree x y
      (h x hx2.1 (of_decide_eq_true hx2.2))
      (h y hy2.1 (of_decide_eq_true hy2.2))
  have htv : truncatedVersionTags lessA tags =
      truncatedVersionTags lessB tags := by
    unfold truncatedVersionTags
    rw [hsort]
  rw [filterTagsA_eq, filterTagsB_eq, htv]

/-- The truncated version-tag list is nonempty as soon as the input
holds some non-"latest" tag. -/
theorem truncated_ne_nil (less : String → String → Bool)
    (tags : List String) (h : ∃ x ∈ tags, x ≠ "latest") :
    truncatedVersionTags less tags ≠ [] := by
  rcases h with ⟨x, hx, hne⟩
  unfold truncatedVersionTags
  have hx2 : x ∈ tags.filter (fun t => decide (t ≠ "latest")) :=
    List.mem_filter.mpr ⟨hx, by simp [hne]⟩
  cases hg : goSort less (tags.filter fun t => decide (t ≠ "latest")) with
  | nil =>
    have := (mem_goSort less x _).mpr hx2
    rw [hg] at this
    simp at this
  | cons a as => simp [hg]

/-- A filterMap whose function succeeds on every member is a map. -/
theorem filterMap_eq_map_of {α β : Type} (F : α → Option β) (G : α → β) :
    ∀ l : List α, (∀ p ∈ l, F p = some (G p)) →
      l.filterMap F = l.map G := by
  intro l
  induction l with
  | nil => intro _; rfl
  | cons a as ih =>
    intro h
    rw [List.filterMap_cons, h a (List.mem_cons_self _ _), List.map_cons,
      ih (fun p hp => h p (List.mem_cons_of_mem _ hp))]

/-- C9 counterexample: on the records [("img","latest","d"),
("img","0","d")] main.go computes an empty `versionDigest` (its tracker
starts at 0, so version "0" never sets it) and therefore omits
"latest", while part_000 (tracker starts at -1) sets it to "d" and
includes "latest"; the two variants produce different mappings. -/
theorem c9_variant_divergence_counterexample :
    processImagesA [⟨"img", "latest", "d"⟩, ⟨"img", "0", "d"⟩] =
      [("img", ["0"])] ∧
    processImagesB [⟨"img", "latest", "d"⟩, ⟨"img", "0", "d"⟩] =
      [("img", ["latest", "0"])] := by
  exact ⟨rfl, rfl⟩

/-- C9 amended: the two variants produce the same mapping on every
record sequence in which (i) every version other than "latest" parses
to a strictly positive integer and (ii) every name that carries a
"latest" record also carries some non-"latest" record.  (The
counterexample shows the restriction in (i) to positive integers is
needed; without (ii) a group reduced to an empty tag list is omitted by
main.go but kept, empty, by part_000.) -/
theorem c9_variant_equivalence_amended (records : List SearchResult)
    (h1 : ∀ r ∈ records, r.version ≠ "latest" → posParse r.version = true)
    (h2 : ∀ r ∈ records, r.version = "latest" →
        ∃ r2 ∈ records, r2.name = r.name ∧ r2.version ≠ "latest") :
    processImagesA records = processImagesB records := by
  unfold processImagesA processImagesB
  apply filterMap_eq_map_of
  intro p hp
  simp only [groupByName] at hp
  rcases List.mem_map.mp hp with ⟨n, hn, hpe⟩
  subst hpe
  dsimp only
  set g := records.filter (fun r => decide (r.name = n)) with hg
  have hgmem : ∀ r ∈ g, r ∈ records ∧ r.name = n := by
    intro r hr
    have hm := List.mem_filter.mp hr
    exact ⟨hm.1, of_decide_eq_true hm.2⟩
  have hex : ∃ x ∈ g.map (fun r => r.version), x ≠ "latest" := by
    have hn2 : n ∈ records.map (fun r => r.name) := firstKeys_sub _ _ _ hn
    rcases List.mem_map.mp hn2 with ⟨r0, hr0, hr0n⟩
    have hr0g : r0 ∈ g := List.mem_filter.mpr ⟨hr0, by simp [hr0n]⟩
    by_cases hv : r0.version = "latest"
    · rcases h2 r0 hr0 hv with ⟨r2, hr2, hname, hnl⟩
      have hr2g : r2 ∈ g :=
        List.mem_filter.mpr ⟨hr2, by simp [hname, hr0n]⟩
      exact ⟨r2.version, List.mem_map.mpr ⟨r2, hr2g, rfl⟩, hnl⟩
    · exact ⟨r0.version, List.mem_map.mpr ⟨r0, hr0g, rfl⟩, hv⟩
  have hparse : ∀ x ∈ g.map (fun r => r.version), x ≠ "latest" →
      (atoi x).isSome = true := by
    intro x hx hne
    rcases List.mem_map.mp hx with ⟨r, hr, he⟩
    have hp1 := h1 r (hgmem r hr).1 (by rw [he]; exact hne)
    rw [← he]
    unfold posParse at hp1
    cases hv : atoi r.version with
    | none => rw [hv] at hp1; simp at hp1
    | some v => simp [hv]
  have hd : digestLoop g "" "" 0 = digestLoop g "" "" (-1) :=
    digestLoop_pos_init g (fun r hr => h1 r (hgmem r hr).1) "" ""
  have hft : filterTagsA (g.map fun r => r.version)
      (digestLoop g "" "" 0).1 (digestLoop g "" "" 0).2 =
      filterTagsB (g.map fun r => r.version)
        (digestLoop g "" "" (-1)).1 (digestLoop g "" "" (-1)).2 := by
    rw [hd]
    exact filterTags_eq_of_parse _ _ _ hparse
  have htags_ne : g.map (fun r => r.version) ≠ [] := by
    rcases hex with ⟨x, hx, _⟩
    intro hnil
    rw [hnil] at hx
    simp at hx
  have hne : filterTagsB (g.map fun r => r.version)
      (digestLoop g "" "" (-1)).1 (digestLoop g "" "" (-1)).2 ≠ [] := by
    rw [filterTagsB_eq, if_neg htags_ne]
    split
    · simp
    · exact truncated_ne_nil lessB _ hex
  rw [hft, if_neg hne]

/-- Witness for C9 amended: a "latest" record accompanied by a positive
version in the same group. -/
theorem c9_variant_equivalence_amended_witness :
    processImagesA [⟨"img", "latest", "d"⟩, ⟨"img", "1", "d"⟩] =
      processImagesB [⟨"img", "latest", "d"⟩, ⟨"img", "1", "d"⟩] := by
  exact c9_variant_equivalence_amended _ (by decide) (by decide)
